import Mathlib

/-!
Verification of the latency/power aggregation core of the memcached-on-linux
benchmarking repository.

The embedding covers the two aggregation scripts:

* `parse_memtier_results.py` — HDR cumulative-histogram delta decoding
  (`parse_hdr_txt`), merging of per-client count dictionaries, nearest-rank
  quantile estimation (`quantile_from_counts`), count-weighted mean
  (`mean_from_counts`), the percentile-summary fallback and the per-rate row
  assembly of `main`, plus its powerstat parser.
* `data-intel.py` — the mutilate master-log parser (`parse_mutilate_file`),
  the outlier-filtered power averager (`parse_powerstat_file`, pandas based),
  the per-rate collection step of `collect_logs_from_directory`, and the
  final sort by rate.

Numeric values are modelled as `ℚ` (Python floats, taken at exact rational
arithmetic) and `ℤ` (Python ints).  Python dicts holding value → count
mappings are modelled as association lists.  `sorted` / `list.sort` is
modelled by an insertion sort `sortBy` on a boolean comparator, together
with permutation and sortedness lemmas about it.
-/

namespace KVAgg

/-! ### Generic insertion sort, modelling Python `sorted` / `list.sort` -/

def insertBy {α : Type} (le : α → α → Bool) (x : α) : List α → List α
  | [] => [x]
  | y :: ys => if le x y then x :: y :: ys else y :: insertBy le x ys

def sortBy {α : Type} (le : α → α → Bool) (l : List α) : List α :=
  l.foldr (insertBy le) []

/-! ### `parse_memtier_results.py`: count dictionaries and merging

A Python `dict` (or `defaultdict(int)`) from latency value to occurrence
count is an association list `List (ℚ × ℤ)`; keys of a dict are pairwise
distinct.  `addCount m v c` models `m[v] += c` on a `defaultdict(int)`. -/

def addCount : List (ℚ × ℤ) → ℚ → ℤ → List (ℚ × ℤ)
  | [], v, c => [(v, c)]
  | q :: rest, v, c =>
    if q.1 = v then (q.1, q.2 + c) :: rest else q :: addCount rest v c

/-- `for v, c in src.items(): m[v] += c` — the merge loop of `main`
(lines 181–182 of `parse_memtier_results.py`). -/
def mergeCounts (m src : List (ℚ × ℤ)) : List (ℚ × ℤ) :=
  src.foldl (fun acc p => addCount acc p.1 p.2) m

/-- Total occurrence count of a count dictionary. -/
def totalCount (m : List (ℚ × ℤ)) : ℤ :=
  (m.map Prod.snd).sum

/-- One iteration of the delta-decoding loop of `parse_hdr_txt`
(lines 72–83): `delta = tc - prev; if delta < 0: delta = 0;
counts[v] += delta; prev = tc`. -/
def hdrStep (acc : List (ℚ × ℤ) × ℤ) (p : ℚ × ℤ) : List (ℚ × ℤ) × ℤ :=
  (addCount acc.1 p.1 (if p.2 - acc.2 < 0 then 0 else p.2 - acc.2), p.2)

/-- The delta-decoding core of `parse_hdr_txt`: consumes the
`(value, cumulativeCount)` pairs read from the HDR text file and returns
the per-value occurrence counts together with the last cumulative count
(`prev`), which the source returns as the file's total. -/
def hdrDecode (pairs : List (ℚ × ℤ)) : List (ℚ × ℤ) × ℤ :=
  pairs.foldl hdrStep ([], 0)

/-! ### Nearest-rank quantile (`quantile_from_counts`) -/

/-- Comparator used by `sorted(counts.items(), key=lambda x: x[0])`. -/
def keyLe (a b : ℚ × ℤ) : Bool := decide (a.1 ≤ b.1)

def sortItems (counts : List (ℚ × ℤ)) : List (ℚ × ℤ) :=
  sortBy keyLe counts

/-- The scan loop of `quantile_from_counts` (lines 95–100): accumulate the
running count, return the first value whose running count reaches the
target; after the loop the source returns `items[-1][0]`, which is the
threaded `last` parameter once the list is exhausted. -/
def qloop : List (ℚ × ℤ) → ℤ → ℤ → ℚ → ℚ
  | [], _, _, last => last
  | p :: rest, run, target, _ =>
    if target ≤ run + p.2 then p.1 else qloop rest (run + p.2) target p.1

/-- `quantile_from_counts(counts, q)` (lines 87–100): `None` on an empty
dict or a zero total, otherwise the nearest-rank value for
`target = ceil(q * total)`. -/
def quantile_from_counts (counts : List (ℚ × ℤ)) (q : ℚ) : Option ℚ :=
  if counts.isEmpty then none
  else if ((sortItems counts).map Prod.snd).sum = 0 then none
  else some (qloop (sortItems counts) 0
    ⌈q * ((((sortItems counts).map Prod.snd).sum : ℤ) : ℚ)⌉ 0)

/-- `mean_from_counts` (lines 103–109): count-weighted mean. -/
def mean_from_counts (counts : List (ℚ × ℤ)) : Option ℚ :=
  if counts.isEmpty then none
  else if totalCount counts = 0 then none
  else some ((counts.map (fun p => p.1 * (p.2 : ℚ))).sum / (totalCount counts : ℚ))

/-- Cumulative count of all values `≤ x` in a count dictionary: the
"running cumulative count over values sorted ascending" reached at `x`. -/
def cumLe (m : List (ℚ × ℤ)) (x : ℚ) : ℤ :=
  ((m.filter fun p => decide (p.1 ≤ x)).map Prod.snd).sum

/-! ### `parse_memtier_results.py`: the per-rate aggregation of `main`

One client log contributes: its `Ops/sec` and `Misses` counters
(`parse_log_ops`; `none` models an unparsable / absent field), the
percentile summary of its `*_FULL_RUN.txt` file (`parse_full_run`; values
in milliseconds; `none` models a missing file, and each percentile key may
individually be missing), and the cumulative histograms of its
`*_FULL_RUN_*.txt` HDR files, already tokenised into
`(value, cumulativeCount)` pairs. -/

/-- The fixed percentile keys `PCTS = [50, 90, 95, 99]`, as one record per
key (the source keeps a dict keyed by the percentile number). -/
structure PctS where
  p50 : Option ℚ
  p90 : Option ℚ
  p95 : Option ℚ
  p99 : Option ℚ
deriving DecidableEq

structure ClientLog where
  ops : Option ℚ
  misses : Option ℚ
  fullRun : Option PctS
  hdrs : List (List (ℚ × ℤ))

/-- The per-percentile maximum update of `main` (lines 173–176):
`if pct_fr[p] is not None: if pct_max[p] is None or pct_fr[p] > pct_max[p]:
pct_max[p] = pct_fr[p]`. -/
def optMax (cur fresh : Option ℚ) : Option ℚ :=
  match fresh with
  | none => cur
  | some v =>
    match cur with
    | none => some v
    | some m => if v > m then some v else some m

/-- One output row of the memtier aggregator (power columns are attached
later from an independent dictionary and do not affect the fields below;
`Rate` is the directory-name suffix, kept as a character string). -/
structure Row where
  rate : List Char
  qps : Option ℚ
  avg : Option ℚ
  p90 : Option ℚ
  p99 : Option ℚ
  missesOut : Option ℚ
deriving DecidableEq

/-- The body of the `for qdir in ...` loop of `main` (lines 158–208) for
one rate point: sum `ops`/`misses` over clients, fold the per-percentile
maxima of the FULL_RUN summaries, merge all HDR histograms, then either
take quantiles and mean from the merged distribution or fall back to the
summary maxima times 1000, and finally multiply the emitted latency fields
by 1000 once more ("convert to microseconds for output", lines 196–199).
The independent accumulators of the single source loop are computed as
separate folds. -/
def aggregateRun (rate : List Char) (logs : List ClientLog) : Row :=
  let tops : ℚ := logs.foldl (fun acc l =>
    match l.ops with | some o => acc + o | none => acc) 0
  let tmiss : ℚ := logs.foldl (fun acc l =>
    match l.misses with | some m => acc + m | none => acc) 0
  let merged : List (ℚ × ℤ) := logs.foldl (fun acc l =>
    l.hdrs.foldl (fun a h => mergeCounts a (hdrDecode h).1) acc) []
  let pmax : PctS := logs.foldl (fun acc l =>
    match l.fullRun with
    | some fr =>
      ⟨optMax acc.p50 fr.p50, optMax acc.p90 fr.p90,
       optMax acc.p95 fr.p95, optMax acc.p99 fr.p99⟩
    | none => acc) ⟨none, none, none, none⟩
  let meanUs : Option ℚ := if merged.isEmpty then none else mean_from_counts merged
  let pv50 : Option ℚ := if merged.isEmpty then pmax.p50.map (fun x => x * 1000)
    else quantile_from_counts merged (50 / 100)
  let pv90 : Option ℚ := if merged.isEmpty then pmax.p90.map (fun x => x * 1000)
    else quantile_from_counts merged (90 / 100)
  let pv99 : Option ℚ := if merged.isEmpty then pmax.p99.map (fun x => x * 1000)
    else quantile_from_counts merged (99 / 100)
  let avgLatency : Option ℚ := match meanUs with | some m => some m | none => pv50
  -- fields: rate, qps, avg, p90, p99, missesOut; a zero ops/misses sum is
  -- falsy in Python and becomes None
  ⟨rate,
   if tops = 0 then none else some tops,
   avgLatency.map (fun x => x * 1000),
   pv90.map (fun x => x * 1000),
   pv99.map (fun x => x * 1000),
   if tmiss = 0 then none else some tmiss⟩

/-- Lexicographic comparison of directory names by character code point,
as Python's `sorted` compares the `qps_*` path names. -/
def lexLe : List Char → List Char → Bool
  | [], _ => true
  | _ :: _, [] => false
  | a :: as, b :: bs =>
    if a.toNat < b.toNat then true
    else if b.toNat < a.toNat then false
    else lexLe as bs

/-- Everything after the first underscore: `name.split('_', 1)[-1]`. -/
def splitFirst : List Char → Option (List Char)
  | [] => none
  | c :: rest => if c = '_' then some rest else splitFirst rest

def rateOfName (name : List Char) : List Char :=
  (splitFirst name).getD name

/-- The row-assembly loop of `main` (lines 151–208): the `qps_*`
directories are processed in `sorted` (lexicographic name) order, a
directory with no client logs is skipped (`continue`), and each remaining
directory appends one row whose `Rate` is the name suffix after the first
underscore. -/
def memtierRows (dirs : List (List Char × List ClientLog)) : List Row :=
  (sortBy (fun a b => lexLe a.1 b.1) dirs).foldl
    (fun rows d =>
      if d.2.isEmpty then rows
      else rows ++ [aggregateRun (rateOfName d.1) d.2]) []

/-! ### `parse_powerstat_file` in `parse_memtier_results.py` (lines 112–138)

This variant averages over all parsed `(util, power)` samples without any
outlier filtering; its standard deviation divides the summed squared
deviations by `N`.  Standard deviations are modelled by their squares
(variances), since the final `** 0.5` leaves `ℚ`. -/

def memtierPowerstat (samples : List (ℚ × ℚ)) : Option ℚ × Option ℚ × Option ℚ :=
  let vp := samples.map Prod.snd
  let vu := samples.map Prod.fst
  if vp.isEmpty then (none, none, none)
  else
    let avg := vp.sum / (vp.length : ℚ)
    let varp := (vp.map (fun x => (x - avg) ^ 2)).sum / (vp.length : ℚ)
    let avgU : Option ℚ := if vu.isEmpty then none else some (vu.sum / (vu.length : ℚ))
    (some avg, some varp, avgU.map (fun u => 100 - u))

/-! ### `data-intel.py`: the outlier-filtered power averager

`parse_powerstat_file` builds a pandas dataframe of `(util, power)`
samples (the numeric coercion and `dropna` are the construction of the
sample list), keeps the rows whose power lies within
`[0.9 * mean, 1.1 * mean]` of the raw power mean, and reports the mean,
the standard deviation (pandas `std()`, `ddof = 1`) and `100 - mean util`
over the retained rows.  Pandas returns `NaN` for the mean of an empty
column and for a standard deviation with fewer than two rows; `NaN` is
modelled as `none`. -/

def meanQ (xs : List ℚ) : Option ℚ :=
  if xs.isEmpty then none else some (xs.sum / (xs.length : ℚ))

/-- The ±10% band filter of `data-intel.py` line 86:
`df = df[(df['power'] >= 0.9 * df['power'].mean()) &
(df['power'] <= 1.1 * df['power'].mean())]`. -/
def retained (samples : List (ℚ × ℚ)) : List (ℚ × ℚ) :=
  match meanQ (samples.map Prod.snd) with
  | none => []
  | some m => samples.filter fun p =>
      decide (9 / 10 * m ≤ p.2) && decide (p.2 ≤ 11 / 10 * m)

/-- Pandas sample variance (`std() ** 2`, `ddof = 1`): `NaN` (`none`) with
fewer than two rows. -/
def sampleVarQ (xs : List ℚ) : Option ℚ :=
  if xs.length < 2 then none
  else some ((xs.map (fun x => (x - xs.sum / (xs.length : ℚ)) ^ 2)).sum
    / ((xs.length : ℚ) - 1))

def avgPower (samples : List (ℚ × ℚ)) : Option ℚ :=
  meanQ ((retained samples).map Prod.snd)

/-- Square of the reported `std_power`. -/
def stdVarPower (samples : List (ℚ × ℚ)) : Option ℚ :=
  sampleVarQ ((retained samples).map Prod.snd)

def cpuBusy (samples : List (ℚ × ℚ)) : Option ℚ :=
  (meanQ ((retained samples).map Prod.fst)).map (fun u => 100 - u)

/-- `parse_powerstat_file` of `data-intel.py` (lines 64–91), with the
standard deviation represented by its square. -/
def parse_powerstat_file (samples : List (ℚ × ℚ)) :
    Option ℚ × Option ℚ × Option ℚ :=
  (avgPower samples, stdVarPower samples, cpuBusy samples)

/-- Modelled from the spec: population variance, dividing the summed
squared deviations by `N` ("population, i.e. divide by N not N−1").  Used
only to compare the source's reported variance against the spec's words. -/
def popVarQ (xs : List ℚ) : Option ℚ :=
  if xs.isEmpty then none
  else some ((xs.map (fun x => (x - xs.sum / (xs.length : ℚ)) ^ 2)).sum
    / (xs.length : ℚ))

/-! ### `data-intel.py`: mutilate parsing and the per-rate collection -/

def listMean (xs : List ℚ) : ℚ := xs.sum / (xs.length : ℚ)

/-- `np.percentile(arr, q)` with the default linear interpolation:
`rank = (q/100) * (n-1)`, interpolate between the two neighbouring order
statistics of the sorted samples. -/
def npPercentile (xs : List ℚ) (q : ℚ) : ℚ :=
  let s := sortBy (fun a b => decide (a ≤ b)) xs
  let rank := q / 100 * ((s.length : ℚ) - 1)
  let lo := (⌊rank⌋).toNat
  let a := s.getD lo 0
  let b := s.getD (lo + 1) a
  a + (rank - (⌊rank⌋ : ℚ)) * (b - a)

/-- What `parse_mutilate_file` extracts from the files before its final
check: the latency statistics of the last parsable `read` line of the
master log, the `Total QPS` value, and — when the companion `.lat` file
exists (`some`) — its parsed raw latency samples. -/
structure MutilateLog where
  readStats : Option (ℚ × ℚ × ℚ)
  totalQps : Option ℚ
  latSamples : Option (List ℚ)

/-- `parse_mutilate_file` (lines 8–62): fall back to the `read` line
statistics, recompute mean/p90/p99 from raw samples when any exist, and
raise `ValueError` (modelled as `Except.error`) when any of the four
required fields is still missing. -/
def parse_mutilate_file (m : MutilateLog) : Except Unit (ℚ × ℚ × ℚ × ℚ) :=
  let s0 : Option ℚ × Option ℚ × Option ℚ :=
    match m.readStats with
    | some t => (some t.1, some t.2.1, some t.2.2)
    | none => (none, none, none)
  let s1 : Option ℚ × Option ℚ × Option ℚ :=
    match m.latSamples with
    | some xs =>
      if xs.isEmpty then s0
      else (some (listMean xs), some (npPercentile xs 90), some (npPercentile xs 99))
    | none => s0
  match m.totalQps, s1.1, s1.2.1, s1.2.2 with
  | some q, some a, some b, some c => .ok (q, a, b, c)
  | _, _, _, _ => .error ()

/-- One entry of the `results` list of `collect_logs_from_directory`
(power columns may be `NaN`, i.e. `none`). -/
structure DIRow where
  rate : ℤ
  qps : ℚ
  avg : ℚ
  p90 : ℚ
  p99 : ℚ
  power : Option ℚ
  stdv : Option ℚ
  util : Option ℚ
deriving DecidableEq

/-- The body of the `for rate in mutilate_rates` loop of
`collect_logs_from_directory` (lines 112–121): on a `ValueError` from the
mutilate parser, or a `FileNotFoundError` for the powerstat file
(`pow = none`), the error is caught, a diagnostic is printed and no row is
appended; otherwise one row is appended. -/
def collectStep (results : List DIRow) (rate : ℤ) (mlog : MutilateLog)
    (pow : Option (List (ℚ × ℚ))) : List DIRow :=
  match parse_mutilate_file mlog with
  | .error _ => results
  | .ok (q, a, b, c) =>
    match pow with
    | none => results
    | some samples =>
      results ++ [⟨rate, q, a, b, c, avgPower samples, stdVarPower samples,
        cpuBusy samples⟩]

/-- `results.sort(key=lambda x: int(x[0]))` (line 137 of `data-intel.py`). -/
def rowLe (a b : DIRow) : Bool := decide (a.rate ≤ b.rate)

def sortResults (rs : List DIRow) : List DIRow := sortBy rowLe rs

/-! ### Concrete inputs used by the claims -/

/-- Numeric value of a rate string of digits. -/
def digitsToNat : List Char → Nat → Nat
  | [], acc => acc
  | c :: rest, acc => digitsToNat rest (acc * 10 + (c.toNat - 48))

def natOfRate (s : List Char) : Nat := digitsToNat s 0

/-- A client log whose master log parsed nothing and which has no
FULL_RUN summary and no HDR histograms: a client that loaded zero
requests. -/
def emptyLog : ClientLog := ⟨none, none, none, []⟩

/-- A client summary reporting only `p99 = 12` (milliseconds). -/
def cl12 : ClientLog := ⟨none, none, some ⟨none, none, none, some 12⟩, []⟩

/-- A client summary reporting only `p99 = 15` (milliseconds). -/
def cl15 : ClientLog := ⟨none, none, some ⟨none, none, none, some 15⟩, []⟩

/-- The example cumulative histogram `[(100,5),(200,12),(300,20)]`. -/
def exHdr : List (ℚ × ℤ) := [(100, 5), (200, 12), (300, 20)]

/-- Its delta-decoded count dictionary `{100:5, 200:7, 300:8}`. -/
def exCounts : List (ℚ × ℤ) := [(100, 5), (200, 7), (300, 8)]

/-- The power series `[10, 10, 10, 10, 100]` (utilisation column zero). -/
def exPower5 : List (ℚ × ℚ) := [(0, 10), (0, 10), (0, 10), (0, 10), (0, 100)]

/-- A power series `[10, 12]` that fully survives the band filter. -/
def exPower2 : List (ℚ × ℚ) := [(0, 10), (0, 12)]

/-- A mutilate run with zero total requests: no parsable `read` line, a
`Total QPS = 0.0` line, and an existing but empty `.lat` file. -/
def zeroMut : MutilateLog := ⟨none, some 0, some []⟩

def dirQps200 : List Char := ['q', 'p', 's', '_', '2', '0', '0']

def dirQps1000 : List Char := ['q', 'p', 's', '_', '1', '0', '0', '0']

def rate1000 : List Char := ['1', '0', '0', '0']

def rate200 : List Char := ['2', '0', '0']

/-! ## Helper lemmas -/

lemma mem_insertBy {α : Type} (le : α → α → Bool) {x z : α} :
    ∀ {l : List α}, z ∈ insertBy le x l → z = x ∨ z ∈ l
  | [], h => by simpa [insertBy] using h
  | y :: ys, h => by
    rw [insertBy] at h
    split at h
    · rcases List.mem_cons.mp h with h1 | h2
      · exact Or.inl h1
      · exact Or.inr h2
    · rcases List.mem_cons.mp h with h1 | h2
      · exact Or.inr (h1 ▸ List.mem_cons_self y ys)
      · rcases mem_insertBy le h2 with h3 | h4
        · exact Or.inl h3
        · exact Or.inr (List.mem_cons_of_mem y h4)

lemma insertBy_perm {α : Type} (le : α → α → Bool) (x : α) :
    ∀ (l : List α), List.Perm (insertBy le x l) (x :: l)
  | [] => by simp [insertBy]
  | y :: ys => by
    rw [insertBy]
    split
    · exact List.Perm.refl _
    · exact ((insertBy_perm le x ys).cons y).trans (List.Perm.swap x y ys)

lemma sortBy_perm {α : Type} (le : α → α → Bool) :
    ∀ (l : List α), List.Perm (sortBy le l) l
  | [] => List.Perm.refl _
  | y :: ys => by
    have h1 : sortBy le (y :: ys) = insertBy le y (sortBy le ys) := rfl
    rw [h1]
    exact (insertBy_perm le y (sortBy le ys)).trans ((sortBy_perm le ys).cons y)

lemma insertBy_pairwise {α : Type} (le : α → α → Bool)
    (htot : ∀ a b : α, le a b = true ∨ le b a = true)
    (htrans : ∀ a b c : α, le a b = true → le b c = true → le a c = true)
    (x : α) :
    ∀ {l : List α}, l.Pairwise (fun a b => le a b = true) →
      (insertBy le x l).Pairwise (fun a b => le a b = true) := by
  intro l
  induction l with
  | nil => intro _; simp [insertBy]
  | cons y ys ih =>
    intro hl
    rw [insertBy]
    rcases List.pairwise_cons.mp hl with ⟨hyall, hys⟩
    by_cases hxy : le x y = true
    · rw [if_pos hxy]
      refine List.pairwise_cons.mpr ⟨?_, hl⟩
      intro z hz
      rcases List.mem_cons.mp hz with h1 | h2
      · exact h1 ▸ hxy
      · exact htrans x y z hxy (hyall z h2)
    · rw [if_neg hxy]
      refine List.pairwise_cons.mpr ⟨?_, ih hys⟩
      intro z hz
      rcases mem_insertBy le hz with h1 | h2
      · subst h1
        rcases htot z y with h3 | h3
        · exact absurd h3 hxy
        · exact h3
      · exact hyall z h2

lemma sortBy_pairwise {α : Type} (le : α → α → Bool)
    (htot : ∀ a b : α, le a b = true ∨ le b a = true)
    (htrans : ∀ a b c : α, le a b = true → le b c = true → le a c = true) :
    ∀ (l : List α), (sortBy le l).Pairwise (fun a b => le a b = true)
  | [] => List.Pairwise.nil
  | y :: ys => insertBy_pairwise le htot htrans y (sortBy_pairwise le htot htrans ys)

lemma pairwise_and {α : Type} {R S : α → α → Prop} :
    ∀ {l : List α}, l.Pairwise R → l.Pairwise S →
      l.Pairwise (fun a b => R a b ∧ S a b) := by
  intro l
  induction l with
  | nil => intro _ _; exact List.Pairwise.nil
  | cons y ys ih =>
    intro h1 h2
    rcases List.pairwise_cons.mp h1 with ⟨h1a, h1b⟩
    rcases List.pairwise_cons.mp h2 with ⟨h2a, h2b⟩
    exact List.pairwise_cons.mpr ⟨fun z hz => ⟨h1a z hz, h2a z hz⟩, ih h1b h2b⟩

/-! ### Totals of `addCount`, `mergeCounts`, `hdrDecode` -/

lemma addCount_total : ∀ (m : List (ℚ × ℤ)) (v : ℚ) (c : ℤ),
    totalCount (addCount m v c) = totalCount m + c
  | [], v, c => by simp [addCount, totalCount]
  | q :: rest, v, c => by
    rw [addCount]
    split
    · simp [totalCount]; ring
    · have ih := addCount_total rest v c
      simp only [totalCount, List.map_cons, List.sum_cons] at ih ⊢
      rw [ih]; ring

lemma mergeCounts_total :
    ∀ (src m : List (ℚ × ℤ)),
      totalCount (mergeCounts m src) = totalCount m + totalCount src
  | [], m => by simp [mergeCounts, totalCount]
  | p :: rest, m => by
    have h1 : mergeCounts m (p :: rest) = mergeCounts (addCount m p.1 p.2) rest := rfl
    rw [h1, mergeCounts_total rest, addCount_total]
    simp only [totalCount, List.map_cons, List.sum_cons]
    ring

lemma addCount_nonneg :
    ∀ (m : List (ℚ × ℤ)) (v : ℚ) (c : ℤ),
      (∀ x ∈ m.map Prod.snd, 0 ≤ x) → 0 ≤ c →
      ∀ x ∈ (addCount m v c).map Prod.snd, 0 ≤ x
  | [], v, c, _, hc => by
    intro x hx
    simp only [addCount, List.map_cons, List.map_nil] at hx
    rw [List.mem_singleton] at hx
    exact hx ▸ hc
  | q :: rest, v, c, hm, hc => by
    have hq : 0 ≤ q.2 :=
      hm q.2 (by rw [List.map_cons]; exact List.mem_cons_self _ _)
    have hrest : ∀ x ∈ rest.map Prod.snd, 0 ≤ x := fun x hx =>
      hm x (by rw [List.map_cons]; exact List.mem_cons_of_mem _ hx)
    intro x hx
    rw [addCount] at hx
    by_cases hqv : q.1 = v
    · rw [if_pos hqv, List.map_cons] at hx
      rcases List.mem_cons.mp hx with h1 | h2
      · rw [h1]; exact add_nonneg hq hc
      · exact hrest x h2
    · rw [if_neg hqv, List.map_cons] at hx
      rcases List.mem_cons.mp hx with h1 | h2
      · rw [h1]; exact hq
      · exact addCount_nonneg rest v c hrest hc x h2

lemma hdrFold_nonneg :
    ∀ (pairs : List (ℚ × ℤ)) (acc : List (ℚ × ℤ) × ℤ),
      (∀ x ∈ acc.1.map Prod.snd, 0 ≤ x) →
      ∀ x ∈ ((pairs.foldl hdrStep acc).1.map Prod.snd), 0 ≤ x
  | [], _, h => h
  | p :: rest, acc, h => by
    rw [List.foldl_cons]
    refine hdrFold_nonneg rest _ ?_
    refine addCount_nonneg _ _ _ h ?_
    dsimp only [hdrStep]
    split
    · exact le_refl 0
    · omega

/-! ### Nearest-rank correctness of `quantile_from_counts` -/

lemma cumLe_cons (p : ℚ × ℤ) (l : List (ℚ × ℤ)) (x : ℚ) :
    cumLe (p :: l) x = (if p.1 ≤ x then p.2 else 0) + cumLe l x := by
  by_cases h : p.1 ≤ x
  · simp [cumLe, List.filter_cons, h]
  · simp [cumLe, List.filter_cons, h]

lemma cumLe_eq_zero {l : List (ℚ × ℤ)} {x : ℚ} (h : ∀ p ∈ l, x < p.1) :
    cumLe l x = 0 := by
  induction l with
  | nil => rfl
  | cons p rest ih =>
    rw [cumLe_cons, if_neg (not_le.mpr (h p (List.mem_cons_self _ _)))]
    rw [ih fun q hq => h q (List.mem_cons_of_mem _ hq), add_zero]

lemma qloop_mem :
    ∀ (L : List (ℚ × ℤ)), L ≠ [] → ∀ (run target : ℤ) (last : ℚ),
      qloop L run target last ∈ L.map Prod.fst
  | [], h, _, _, _ => absurd rfl h
  | p :: rest, _, run, target, last => by
    rw [qloop]
    by_cases hhit : target ≤ run + p.2
    · rw [if_pos hhit, List.map_cons]
      exact List.mem_cons_self _ _
    · rw [if_neg hhit, List.map_cons]
      match rest with
      | [] => rw [qloop]; exact List.mem_cons_self _ _
      | q :: rs =>
        exact List.mem_cons_of_mem _
          (qloop_mem (q :: rs) (by simp) (run + p.2) target p.1)

lemma qloop_min :
    ∀ (L : List (ℚ × ℤ)), L ≠ [] →
      L.Pairwise (fun a b => a.1 < b.1) →
      (∀ p ∈ L, 0 ≤ p.2) →
      ∀ (run target : ℤ) (last : ℚ),
      target ≤ run + (L.map Prod.snd).sum →
      ∃ v, qloop L run target last = v ∧ v ∈ L.map Prod.fst ∧
        target ≤ run + cumLe L v ∧
        ∀ w ∈ L.map Prod.fst, target ≤ run + cumLe L w → v ≤ w
  | [], h, _, _, _, _, _, _ => absurd rfl h
  | p :: rest, _, hsort, hnn, run, target, last, hreach => by
    rcases List.pairwise_cons.mp hsort with ⟨hlt, hsort'⟩
    rw [qloop]
    by_cases hhit : target ≤ run + p.2
    · rw [if_pos hhit]
      refine ⟨p.1, rfl, by rw [List.map_cons]; exact List.mem_cons_self _ _, ?_, ?_⟩
      · rw [cumLe_cons, if_pos le_rfl, cumLe_eq_zero hlt]
        simpa using hhit
      · intro w hw _
        rw [List.map_cons] at hw
        rcases List.mem_cons.mp hw with h1 | h2
        · exact h1 ▸ le_rfl
        · rcases List.mem_map.mp h2 with ⟨q, hq, rfl⟩
          exact le_of_lt (hlt q hq)
    · rw [if_neg hhit]
      have hrest : rest ≠ [] := by
        rintro rfl
        simp only [List.map_cons, List.map_nil, List.sum_cons, List.sum_nil,
          add_zero] at hreach
        exact hhit hreach
      have hnn' : ∀ q ∈ rest, 0 ≤ q.2 := fun q hq => hnn q (List.mem_cons_of_mem _ hq)
      have hreach' : target ≤ (run + p.2) + (rest.map Prod.snd).sum := by
        rw [List.map_cons, List.sum_cons] at hreach
        linarith
      obtain ⟨w, hweq, hwmem, hwcum, hwmin⟩ :=
        qloop_min rest hrest hsort' hnn' (run + p.2) target p.1 hreach'
      have hpw : p.1 < w := by
        rcases List.mem_map.mp hwmem with ⟨q, hq, rfl⟩
        exact hlt q hq
      refine ⟨w, hweq, by rw [List.map_cons]; exact List.mem_cons_of_mem _ hwmem, ?_, ?_⟩
      · rw [cumLe_cons, if_pos (le_of_lt hpw)]
        linarith
      · intro u hu hucum
        rw [List.map_cons] at hu
        rcases List.mem_cons.mp hu with h1 | h2
        · exfalso
          subst h1
          rw [cumLe_cons, if_pos le_rfl, cumLe_eq_zero hlt] at hucum
          simp only [add_zero] at hucum
          exact hhit (by linarith)
        · have hpu : p.1 < u := by
            rcases List.mem_map.mp h2 with ⟨q, hq, rfl⟩
            exact hlt q hq
          rw [cumLe_cons, if_pos (le_of_lt hpu)] at hucum
          exact hwmin u h2 (by linarith)

lemma cumLe_perm {L M : List (ℚ × ℤ)} (h : List.Perm L M) (x : ℚ) :
    cumLe L x = cumLe M x :=
  ((h.filter _).map Prod.snd).sum_eq

lemma sortItems_perm (counts : List (ℚ × ℤ)) :
    List.Perm (sortItems counts) counts :=
  sortBy_perm keyLe counts

lemma sortItems_total (counts : List (ℚ × ℤ)) :
    ((sortItems counts).map Prod.snd).sum = totalCount counts :=
  ((sortItems_perm counts).map Prod.snd).sum_eq

lemma sortItems_strict {counts : List (ℚ × ℤ)}
    (hnodup : (counts.map Prod.fst).Nodup) :
    (sortItems counts).Pairwise (fun a b => a.1 < b.1) := by
  have hpair : (sortItems counts).Pairwise (fun a b => keyLe a b = true) := by
    refine sortBy_pairwise keyLe ?_ ?_ counts
    · intro a b
      rcases le_total a.1 b.1 with h | h
      · exact Or.inl (decide_eq_true h)
      · exact Or.inr (decide_eq_true h)
    · intro a b c h1 h2
      exact decide_eq_true (le_trans (of_decide_eq_true h1) (of_decide_eq_true h2))
  have hnodup' : ((sortItems counts).map Prod.fst).Nodup :=
    ((sortItems_perm counts).map Prod.fst).nodup_iff.mpr hnodup
  have hne : (sortItems counts).Pairwise (fun a b => a.1 ≠ b.1) :=
    List.pairwise_map.mp hnodup'
  exact (pairwise_and hpair hne).imp
    fun h => lt_of_le_of_ne (of_decide_eq_true h.1) h.2

lemma quantile_eq_qloop (counts : List (ℚ × ℤ)) (q : ℚ)
    (hne : counts ≠ []) (htot : totalCount counts ≠ 0) :
    quantile_from_counts counts q =
      some (qloop (sortItems counts) 0 ⌈q * (totalCount counts : ℚ)⌉ 0) := by
  have hE : counts.isEmpty = false := by
    cases counts
    · exact absurd rfl hne
    · rfl
  rw [quantile_from_counts, hE, sortItems_total]
  simp [htot]

lemma sortItems_ne {counts : List (ℚ × ℤ)} (hne : counts ≠ []) :
    sortItems counts ≠ [] := by
  intro h
  have h2 : List.Perm [] counts := h ▸ sortItems_perm counts
  exact hne h2.symm.eq_nil

/-- Characterisation of `quantile_from_counts` on a distribution with
distinct keys, nonnegative counts and positive total: it returns the
smallest value whose cumulative count reaches `ceil(q * total)`. -/
lemma quantile_spec (counts : List (ℚ × ℤ)) (q : ℚ)
    (hne : counts ≠ [])
    (hnn : ∀ p ∈ counts, 0 ≤ p.2)
    (hnodup : (counts.map Prod.fst).Nodup)
    (htot : 0 < totalCount counts)
    (hq0 : 0 < q) (hq1 : q ≤ 1) :
    ∃ v, quantile_from_counts counts q = some v ∧
      v ∈ counts.map Prod.fst ∧
      ⌈q * (totalCount counts : ℚ)⌉ ≤ cumLe counts v ∧
      ∀ w ∈ counts.map Prod.fst,
        ⌈q * (totalCount counts : ℚ)⌉ ≤ cumLe counts w → v ≤ w := by
  have hperm := sortItems_perm counts
  have hsne : sortItems counts ≠ [] := sortItems_ne hne
  have hnn' : ∀ p ∈ sortItems counts, 0 ≤ p.2 := fun p hp =>
    hnn p (hperm.mem_iff.mp hp)
  have hreach : ⌈q * (totalCount counts : ℚ)⌉ ≤
      0 + ((sortItems counts).map Prod.snd).sum := by
    rw [sortItems_total, zero_add]
    refine Int.ceil_le.mpr ?_
    have h0 : (0 : ℚ) ≤ (totalCount counts : ℚ) := by
      exact_mod_cast le_of_lt htot
    calc q * (totalCount counts : ℚ) ≤ 1 * (totalCount counts : ℚ) :=
          mul_le_mul_of_nonneg_right hq1 h0
      _ = ((totalCount counts : ℤ) : ℚ) := by rw [one_mul]
  obtain ⟨v, hveq, hvmem, hvcum, hvmin⟩ :=
    qloop_min (sortItems counts) hsne (sortItems_strict hnodup) hnn'
      0 ⌈q * (totalCount counts : ℚ)⌉ 0 hreach
  rw [zero_add] at hvcum
  refine ⟨v, ?_, (hperm.map Prod.fst).subset hvmem, ?_, ?_⟩
  · rw [quantile_eq_qloop counts q hne (ne_of_gt htot), hveq]
  · rw [← cumLe_perm hperm]
    exact hvcum
  · intro w hw hwcum
    refine hvmin w ((hperm.map Prod.fst).symm.subset hw) ?_
    rw [zero_add, cumLe_perm hperm]
    exact hwcum

/-- Monotonicity of the nearest-rank estimate in the quantile. -/
lemma quantile_mono (counts : List (ℚ × ℤ))
    (hne : counts ≠ [])
    (hnn : ∀ p ∈ counts, 0 ≤ p.2)
    (hnodup : (counts.map Prod.fst).Nodup)
    (htot : 0 < totalCount counts)
    (q1 q2 : ℚ) (hq0 : 0 < q1) (h12 : q1 ≤ q2) (hq1 : q2 ≤ 1) :
    ∃ a b, quantile_from_counts counts q1 = some a ∧
      quantile_from_counts counts q2 = some b ∧ a ≤ b := by
  obtain ⟨a, ha, _, _, hamin⟩ :=
    quantile_spec counts q1 hne hnn hnodup htot hq0 (le_trans h12 hq1)
  obtain ⟨b, hb, hbmem, hbcum, _⟩ :=
    quantile_spec counts q2 hne hnn hnodup htot (lt_of_lt_of_le hq0 h12) hq1
  refine ⟨a, b, ha, hb, ?_⟩
  refine hamin b hbmem (le_trans ?_ hbcum)
  refine Int.ceil_le_ceil ?_
  have h0 : (0 : ℚ) ≤ (totalCount counts : ℚ) := by
    exact_mod_cast le_of_lt htot
  exact mul_le_mul_of_nonneg_right h12 h0

lemma rowLe_total : ∀ a b : DIRow, rowLe a b = true ∨ rowLe b a = true := by
  intro a b
  rcases le_total a.rate b.rate with h | h
  · exact Or.inl (decide_eq_true h)
  · exact Or.inr (decide_eq_true h)

lemma rowLe_trans : ∀ a b c : DIRow,
    rowLe a b = true → rowLe b c = true → rowLe a c = true := by
  intro a b c h1 h2
  exact decide_eq_true (le_trans (of_decide_eq_true h1) (of_decide_eq_true h2))

/-! ## Claims -/

/-- C1: in summary-based fallback mode the aggregate percentile values are
the per-client maxima converted from milliseconds, but the emitted p99 is
NOT 15000 µs for client summaries of 12 ms and 15 ms: the fallback branch
multiplies by 1000 (line 193) and the output conversion multiplies by 1000
again (line 199), so the emitted value is 15000000.  This contradicts the
module's own docstring ("fallback to FULL_RUN percentiles in ms ->
converted to µs"; output latencies in microseconds). -/
theorem fallback_p99_double_converted :
    (aggregateRun ['1', '0', '0', '0'] [cl12, cl15]).p99 = some 15000000 ∧
    (15000000 : ℚ) ≠ 15000 := by
  constructor
  · norm_num [aggregateRun, cl12, cl15, optMax]
  · norm_num

/-- C2: on a distribution with distinct keys, nonnegative counts and a
positive total, `quantile_from_counts` returns the smallest value whose
cumulative count (over values sorted ascending) reaches
`ceil(q * total)`; and on the example cumulative histogram
`[(100,5),(200,12),(300,20)]` the delta-decoded counts are
`{100:5, 200:7, 300:8}` with total 20, p50 (target 10) is 200 and p99
(target 20) is 300. -/
theorem quantile_nearest_rank (counts : List (ℚ × ℤ)) (q : ℚ)
    (hne : counts ≠ []) (hnn : ∀ p ∈ counts, 0 ≤ p.2)
    (hnodup : (counts.map Prod.fst).Nodup)
    (htot : 0 < totalCount counts) (hq0 : 0 < q) (hq1 : q ≤ 1) :
    (∃ v, quantile_from_counts counts q = some v ∧
      v ∈ counts.map Prod.fst ∧
      ⌈q * (totalCount counts : ℚ)⌉ ≤ cumLe counts v ∧
      ∀ w ∈ counts.map Prod.fst,
        ⌈q * (totalCount counts : ℚ)⌉ ≤ cumLe counts w → v ≤ w) ∧
    hdrDecode exHdr = (exCounts, 20) ∧
    totalCount exCounts = 20 ∧
    ⌈(50 / 100 : ℚ) * (totalCount exCounts : ℚ)⌉ = 10 ∧
    quantile_from_counts exCounts (50 / 100) = some 200 ∧
    ⌈(99 / 100 : ℚ) * (totalCount exCounts : ℚ)⌉ = 20 ∧
    quantile_from_counts exCounts (99 / 100) = some 300 := by
  have h20 : totalCount exCounts = (20 : ℤ) := by decide
  have hc50 : ⌈(50 / 100 : ℚ) * ((totalCount exCounts : ℤ) : ℚ)⌉ = 10 := by
    rw [h20, Int.ceil_eq_iff]
    constructor <;> norm_num
  have hc99 : ⌈(99 / 100 : ℚ) * ((totalCount exCounts : ℤ) : ℚ)⌉ = 20 := by
    rw [h20, Int.ceil_eq_iff]
    constructor <;> norm_num
  refine ⟨quantile_spec counts q hne hnn hnodup htot hq0 hq1,
    by decide, by decide, hc50, ?_, hc99, ?_⟩
  · rw [quantile_eq_qloop exCounts (50 / 100) (by decide) (by decide), hc50]
    decide
  · rw [quantile_eq_qloop exCounts (99 / 100) (by decide) (by decide), hc99]
    decide

theorem quantile_nearest_rank_apply :
    ∃ v, quantile_from_counts exCounts (50 / 100) = some v ∧
      v ∈ exCounts.map Prod.fst := by
  obtain ⟨⟨v, h1, h2, _, _⟩, _⟩ :=
    quantile_nearest_rank exCounts (50 / 100) (by decide) (by decide)
      (by decide) (by decide) (by norm_num) (by norm_num)
  exact ⟨v, h1, h2⟩

/-- C3 (amended): the Outlier-Filtered Averager keeps exactly the samples
whose power lies within ±10% of the raw mean and recomputes over the
retained subset; for the series `[10,10,10,10,100]` the band
`[25.2, 30.8]` around the raw mean 28 contains no sample at all, so the
retained subset is empty and mean and standard deviation are null (NaN),
not ≈10 and ≈0. -/
theorem retained_within_band (samples : List (ℚ × ℚ)) (p : ℚ × ℚ)
    (hp : p ∈ retained samples) :
    (∃ m, meanQ (samples.map Prod.snd) = some m ∧
      9 / 10 * m ≤ p.2 ∧ p.2 ≤ 11 / 10 * m ∧ p ∈ samples) ∧
    retained exPower5 = [] ∧ avgPower exPower5 = none ∧
    stdVarPower exPower5 = none := by
  refine ⟨?_, by norm_num [retained, exPower5, meanQ, List.filter],
    by norm_num [avgPower, retained, exPower5, meanQ, List.filter],
    by norm_num [stdVarPower, retained, exPower5, meanQ, List.filter, sampleVarQ]⟩
  unfold retained at hp
  cases hm : meanQ (samples.map Prod.snd) with
  | none =>
    rw [hm] at hp
    exact absurd hp (List.not_mem_nil p)
  | some m =>
    rw [hm] at hp
    rcases List.mem_filter.mp hp with ⟨hmem, hband⟩
    rw [Bool.and_eq_true] at hband
    exact ⟨m, rfl, of_decide_eq_true hband.1, of_decide_eq_true hband.2, hmem⟩

theorem retained_within_band_apply :
    ((0 : ℚ), (10 : ℚ)) ∈ retained exPower2 ∧
    ((∃ m, meanQ (exPower2.map Prod.snd) = some m ∧
      9 / 10 * m ≤ (10 : ℚ) ∧ (10 : ℚ) ≤ 11 / 10 * m ∧
      ((0 : ℚ), (10 : ℚ)) ∈ exPower2) ∧
    retained exPower5 = [] ∧ avgPower exPower5 = none ∧
    stdVarPower exPower5 = none) :=
  ⟨by norm_num [retained, exPower2, meanQ, List.filter],
   retained_within_band exPower2 ((0 : ℚ), (10 : ℚ))
     (by norm_num [retained, exPower2, meanQ, List.filter])⟩

/-- C3 (counterexample): on `[10,10,10,10,100]` the single-pass ±10% band
filter retains nothing, so the reported mean is null rather than ≈10. -/
theorem olf_series_all_filtered :
    retained exPower5 = [] ∧ avgPower exPower5 = none ∧
    stdVarPower exPower5 = none := by
  refine ⟨?_, ?_, ?_⟩
  · norm_num [retained, exPower5, meanQ, List.filter]
  · norm_num [avgPower, retained, exPower5, meanQ, List.filter]
  · norm_num [stdVarPower, retained, exPower5, meanQ, List.filter, sampleVarQ]

/-- C4 (amended): a run with zero total requests never raises out of the
batch aggregation, but only the memtier aggregator emits a RunRecord with
null latency fields; the mutilate aggregator of `data-intel.py` catches
the `ValueError` of `parse_mutilate_file` and appends nothing, dropping
the run. -/
theorem zero_data_run_handling :
    (∀ (results : List DIRow) (rate : ℤ) (pow : Option (List (ℚ × ℚ))),
      collectStep results rate zeroMut pow = results) ∧
    memtierRows [(['q', 'p', 's', '_', '0'], [emptyLog])] =
      [⟨['0'], none, none, none, none, none⟩] := by
  constructor
  · intro results rate pow
    rfl
  · decide

/-- C4 (counterexample): a zero-request mutilate run (no parsable `read`
line, `Total QPS = 0.0`, empty `.lat` file) produces NO record in
`data-intel.py`: the results list stays empty instead of receiving a
null-field record. -/
theorem zero_data_run_dropped :
    collectStep [] 100 zeroMut (some []) = [] := rfl

/-- C5 (amended): `data-intel.py` sorts its records ascending by numeric
rate before writing; `parse_memtier_results.py` emits its rows in
lexicographic order of the `qps_*` directory names, e.g. `qps_1000`
before `qps_200`. -/
theorem rows_sorted_by_rate (rs : List DIRow) :
    (sortResults rs).Pairwise (fun a b => a.rate ≤ b.rate) ∧
    (memtierRows [(dirQps200, [emptyLog]), (dirQps1000, [emptyLog])]).map
      Row.rate = [rate1000, rate200] := by
  constructor
  · exact (sortBy_pairwise rowLe rowLe_total rowLe_trans rs).imp
      fun h => of_decide_eq_true h
  · decide

/-- C5 (counterexample): with rate points 200 and 1000 the memtier
aggregator hands the writer the rows in the order 1000, 200 — not
ascending by numeric rate. -/
theorem memtier_rows_lex_order :
    (memtierRows [(dirQps200, [emptyLog]), (dirQps1000, [emptyLog])]).map
      Row.rate = [rate1000, rate200] ∧
    natOfRate rate1000 = 1000 ∧ natOfRate rate200 = 200 ∧
    ¬ (1000 ≤ 200) := by decide

/-- C6: on a non-empty distribution with distinct keys, nonnegative counts
and a positive total, the nearest-rank estimates are monotone in the
quantile: p50 ≤ p90 ≤ p95 ≤ p99. -/
theorem quantile_pct_monotone (counts : List (ℚ × ℤ))
    (hne : counts ≠ []) (hnn : ∀ p ∈ counts, 0 ≤ p.2)
    (hnodup : (counts.map Prod.fst).Nodup)
    (htot : 0 < totalCount counts) :
    ∃ a b c d,
      quantile_from_counts counts (50 / 100) = some a ∧
      quantile_from_counts counts (90 / 100) = some b ∧
      quantile_from_counts counts (95 / 100) = some c ∧
      quantile_from_counts counts (99 / 100) = some d ∧
      a ≤ b ∧ b ≤ c ∧ c ≤ d := by
  obtain ⟨a, b, ha, hb, hab⟩ :=
    quantile_mono counts hne hnn hnodup htot (50 / 100) (90 / 100)
      (by norm_num) (by norm_num) (by norm_num)
  obtain ⟨b', c, hb', hc, hbc⟩ :=
    quantile_mono counts hne hnn hnodup htot (90 / 100) (95 / 100)
      (by norm_num) (by norm_num) (by norm_num)
  obtain ⟨c', d, hc', hd, hcd⟩ :=
    quantile_mono counts hne hnn hnodup htot (95 / 100) (99 / 100)
      (by norm_num) (by norm_num) (by norm_num)
  have hbb : b' = b := Option.some.inj (hb'.symm.trans hb)
  have hcc : c' = c := Option.some.inj (hc'.symm.trans hc)
  subst hbb
  subst hcc
  exact ⟨a, b', c', d, ha, hb, hc, hd, hab, hbc, hcd⟩

theorem quantile_pct_monotone_apply :
    ∃ a b c d,
      quantile_from_counts exCounts (50 / 100) = some a ∧
      quantile_from_counts exCounts (90 / 100) = some b ∧
      quantile_from_counts exCounts (95 / 100) = some c ∧
      quantile_from_counts exCounts (99 / 100) = some d ∧
      a ≤ b ∧ b ≤ c ∧ c ≤ d :=
  quantile_pct_monotone exCounts (by decide) (by decide) (by decide) (by decide)

/-- C7 (amended): the standard deviation reported by the Outlier-Filtered
Averager of `data-intel.py` is the pandas sample standard deviation
(`ddof = 1`): on any series whose retained subset has `N ≥ 2` samples,
the reported variance `v` satisfies `v * (N - 1) = p * N` where `p` is
the population variance, i.e. the summed squared deviations are divided
by `N − 1`, not `N`. -/
theorem sample_variance_relation (samples : List (ℚ × ℚ))
    (h2 : 2 ≤ ((retained samples).map Prod.snd).length) :
    ∃ v p, stdVarPower samples = some v ∧
      popVarQ ((retained samples).map Prod.snd) = some p ∧
      v * ((((retained samples).map Prod.snd).length : ℚ) - 1) =
        p * (((retained samples).map Prod.snd).length : ℚ) := by
  set xs := (retained samples).map Prod.snd with hxs
  have hlen2 : (2 : ℚ) ≤ (xs.length : ℚ) := by exact_mod_cast h2
  have hE : xs.isEmpty = false := by
    cases hc : xs
    · rw [hc] at h2
      simp at h2
    · rfl
  have hnlt : ¬ xs.length < 2 := not_lt.mpr h2
  refine ⟨(xs.map (fun x => (x - xs.sum / (xs.length : ℚ)) ^ 2)).sum /
      ((xs.length : ℚ) - 1),
    (xs.map (fun x => (x - xs.sum / (xs.length : ℚ)) ^ 2)).sum /
      (xs.length : ℚ), ?_, ?_, ?_⟩
  · simp only [stdVarPower, sampleVarQ, ← hxs]
    rw [if_neg hnlt]
  · simp only [popVarQ, hE, Bool.false_eq_true, if_false]
  · have ha : ((xs.length : ℚ) - 1) ≠ 0 := by linarith
    have hb : ((xs.length : ℚ)) ≠ 0 := by linarith
    rw [div_mul_cancel₀ _ ha, div_mul_cancel₀ _ hb]

theorem sample_variance_relation_apply :
    2 ≤ ((retained exPower2).map Prod.snd).length ∧
    (∃ v p, stdVarPower exPower2 = some v ∧
      popVarQ ((retained exPower2).map Prod.snd) = some p ∧
      v * ((((retained exPower2).map Prod.snd).length : ℚ) - 1) =
        p * (((retained exPower2).map Prod.snd).length : ℚ)) :=
  ⟨by norm_num [retained, exPower2, meanQ, List.filter],
   sample_variance_relation exPower2
     (by norm_num [retained, exPower2, meanQ, List.filter])⟩

/-- C7 (counterexample): for retained powers `[10, 12]` the code reports
variance 2 (division by `N − 1 = 1`), while the population variance is 1;
the reported standard deviation is therefore not the population one. -/
theorem stdv_is_sample_variance :
    stdVarPower exPower2 = some 2 ∧
    popVarQ ((retained exPower2).map Prod.snd) = some 1 ∧
    (2 : ℚ) ≠ 1 := by
  refine ⟨?_, ?_, by norm_num⟩
  · norm_num [stdVarPower, retained, exPower2, meanQ, List.filter, sampleVarQ]
  · norm_num [popVarQ, retained, exPower2, meanQ, List.filter]

/-- C8: merging two count dictionaries (with disjoint value supports, as
in the claim) adds their total counts. -/
theorem merge_totalCount_additive (A B : List (ℚ × ℤ))
    (hdisj : ∀ v ∈ A.map Prod.fst, v ∉ B.map Prod.fst) :
    totalCount (mergeCounts A B) = totalCount A + totalCount B :=
  mergeCounts_total B A

theorem merge_totalCount_additive_apply :
    (∀ v ∈ ([((100 : ℚ), (5 : ℤ))].map Prod.fst),
      v ∉ ([((200 : ℚ), (7 : ℤ))].map Prod.fst)) ∧
    totalCount (mergeCounts [((100 : ℚ), (5 : ℤ))] [((200 : ℚ), (7 : ℤ))]) =
      totalCount [((100 : ℚ), (5 : ℤ))] + totalCount [((200 : ℚ), (7 : ℤ))] :=
  ⟨by decide, merge_totalCount_additive _ _ (by decide)⟩

/-- C9: every occurrence count produced by the delta decoding of
`parse_hdr_txt` is nonnegative, because a negative
`currentCumulativeCount − previousCumulativeCount` is clamped to zero;
the decoding is a total function and never raises. -/
theorem hdr_delta_counts_nonneg (pairs : List (ℚ × ℤ)) (c : ℤ)
    (hc : c ∈ (hdrDecode pairs).1.map Prod.snd) : 0 ≤ c :=
  hdrFold_nonneg pairs ([], 0) (by simp) c hc

theorem hdr_delta_counts_nonneg_apply :
    (0 : ℤ) ∈ (hdrDecode [((100 : ℚ), (5 : ℤ)), (200, 3)]).1.map Prod.snd ∧
    (0 : ℤ) ≤ 0 :=
  ⟨by decide, hdr_delta_counts_nonneg [((100 : ℚ), (5 : ℤ)), (200, 3)] 0 (by decide)⟩

/-- C10: on a non-empty counts mapping with positive total and
`q ∈ (0,1]`, `quantile_from_counts` returns one of the keys present in
the mapping: it never fabricates a value outside the support. -/
theorem quantile_mem_support (counts : List (ℚ × ℤ)) (q : ℚ)
    (hne : counts ≠ []) (htot : 0 < totalCount counts)
    (hq0 : 0 < q) (hq1 : q ≤ 1) :
    ∃ v, quantile_from_counts counts q = some v ∧ v ∈ counts.map Prod.fst := by
  refine ⟨qloop (sortItems counts) 0 ⌈q * (totalCount counts : ℚ)⌉ 0,
    quantile_eq_qloop counts q hne (ne_of_gt htot), ?_⟩
  exact ((sortItems_perm counts).map Prod.fst).subset
    (qloop_mem (sortItems counts) (sortItems_ne hne) _ _ _)

theorem quantile_mem_support_apply :
    ∃ v, quantile_from_counts exCounts (99 / 100) = some v ∧
      v ∈ exCounts.map Prod.fst :=
  quantile_mem_support exCounts (99 / 100) (by decide) (by decide)
    (by norm_num) (by norm_num)

end KVAgg
